import Mathlib

/-!
Shallow embedding of the `keboola/go-utils` core: the `orderedmap` package
(insertion-order-preserving map with nested path addressing and a JSON codec)
and the `deepcopy` package (generic recursive cloner with pointer-identity
preservation).  Each Lean definition mirrors one Go function of the source;
Go runtime panics are modelled as an explicit `panicked` result, Go `error`
values as `Option String` carrying the exact `fmt.Errorf` text.
-/

set_option maxHeartbeats 1000000

namespace OrderedMapModel

/-- Go `any` values stored inside an `OrderedMap`, as produced by `Set` and by
JSON decoding.  `vmap keys values` models `*OrderedMap` (`keys []string`
plus the unordered table `values map[string]any`, the latter as an
association list without duplicate keys); `vgomap` models a plain Go
`map[string]any` (as produced by `encoding/json` before the token walk
converts it); `varr` models `[]any`; `vnum` models a JSON number. -/
inductive Value where
  | vmap (keys : List String) (vals : List (String × Value))
  | vgomap (pairs : List (String × Value))
  | varr (elems : List Value)
  | vstr (s : String)
  | vnum (n : Int)
  | vbool (b : Bool)
  | vnull
  deriving Repr

/-- Lookup in the `values map[string]any` table (Go map read `o.values[key]`). -/
def asGet (l : List (String × Value)) (k : String) : Option Value :=
  match l with
  | [] => none
  | (k', v) :: rest => if k' = k then some v else asGet rest k

/-- Go map write `o.values[key] = value`: replace the key's entry if present,
otherwise add it. -/
def asSet (l : List (String × Value)) (k : String) (v : Value) : List (String × Value) :=
  match l with
  | [] => [(k, v)]
  | (k', v') :: rest => if k' = k then (k', v) :: rest else (k', v') :: asSet rest k v

/-- Go map delete `delete(o.values, key)`. -/
def asErase (l : List (String × Value)) (k : String) : List (String × Value) :=
  match l with
  | [] => []
  | (k', v') :: rest => if k' = k then rest else (k', v') :: asErase rest k

/-- The two parallel structures of `OrderedMap`. -/
structure OM where
  keys : List String
  vals : List (String × Value)
  deriving Repr

/-- `New()`. -/
def omNew : OM := ⟨[], []⟩

/-- `Get(key) -> (value, found)`; the pair is encoded as an `Option`. -/
def omGet (m : OM) (k : String) : Option Value := asGet m.vals k

/-- `Set(key, value)`: append `key` to `o.keys` only when `o.values` has no
entry for it, then always write `o.values[key] = value`. -/
def omSet (m : OM) (k : String) (v : Value) : OM :=
  let keys' := if (asGet m.vals k).isSome then m.keys else m.keys ++ [k]
  ⟨keys', asSet m.vals k v⟩

/-- `Delete(key)`: no-op when `o.values` has no entry; otherwise remove the
first occurrence of the key from `o.keys` and the entry from `o.values`. -/
def omDelete (m : OM) (k : String) : OM :=
  if (asGet m.vals k).isSome then ⟨m.keys.erase k, asErase m.vals k⟩ else m

/-- `Keys()` (the order sequence). -/
def omKeys (m : OM) : List String := m.keys

/-- `Len()`. -/
def omLen (m : OM) : Nat := m.keys.length

/-- A `Step` of an orderedmap `Path`: `MapStep` (map key) or `SliceStep`
(slice index, a Go `int`, hence possibly negative). -/
inductive OStep where
  | mapStep (k : String)
  | sliceStep (i : Int)
  deriving Repr, DecidableEq

/-- The piece contributed by one step to `Path.String()`: `MapStep` renders as
its bare key, `SliceStep` as `[i]`. -/
def ostepStr : OStep → String
  | .mapStep k => k
  | .sliceStep i => "[" ++ toString i ++ "]"

/-- One left-to-right, non-overlapping pass of `strings.ReplaceAll` for a
two-character pattern. -/
def replace2 (a b : Char) (rep : List Char) : List Char → List Char
  | [] => []
  | [c] => [c]
  | c1 :: c2 :: rest =>
    if c1 = a ∧ c2 = b then rep ++ replace2 a b rep rest
    else c1 :: replace2 a b rep (c2 :: rest)

/-- `Path.String()`: join the step strings with `.`, then replace `.[` by `[`. -/
def opathStr (p : List OStep) : String :=
  ⟨replace2 '.' '[' ['['] (String.intercalate "." (p.map ostepStr)).toList⟩

/-- Go `%T` of a step (used in the "last key must be MapStep" error). -/
def ostepTypeName : OStep → String
  | .mapStep _ => "orderedmap.MapStep"
  | .sliceStep _ => "orderedmap.SliceStep"

/-- Go `%T` of the runtime value held in `any` (used in the
"expected object/array found ..." errors). -/
def valTypeName : Value → String
  | .vmap _ _ => "*orderedmap.OrderedMap"
  | .vgomap _ => "map[string]interface \x7b\x7d"
  | .varr _ => "[]interface \x7b\x7d"
  | .vstr _ => "string"
  | .vnum _ => "float64"
  | .vbool _ => "bool"
  | .vnull => "<nil>"

/-- Result of `GetNestedPath`: the Go triple `(value, found, error)`, or a
runtime panic (index out of range). -/
inductive GetRes where
  | res (value : Option Value) (found : Bool) (err : Option String)
  | panicked
  deriving Repr

/-- The loop body of `GetNestedPath`: `acc` is `currentKey` (the path walked so
far), `current` the value reached.  A `SliceStep` is admitted by the source
whenever `len(s) >= int(key)`; the subsequent Go index expression `s[key]`
panics unless `0 <= key < len(s)`. -/
def getNestedLoop (acc : List OStep) (current : Value) : List OStep → GetRes
  | [] => .res (some current) true none
  | step :: rest =>
    let acc' := acc ++ [step]
    match step with
    | .mapStep k =>
      match current with
      | .vmap ks vs =>
        match omGet ⟨ks, vs⟩ k with
        | some v => getNestedLoop acc' v rest
        | none => .res none false (some ("path \"" ++ opathStr acc' ++ "\" not found"))
      | other =>
        .res none true (some ("path \"" ++ opathStr acc'.dropLast ++
          "\": expected object found \"" ++ valTypeName other ++ "\""))
    | .sliceStep i =>
      match current with
      | .varr s =>
        if (s.length : Int) ≥ i then
          if h : 0 ≤ i ∧ i.toNat < s.length then
            getNestedLoop acc' (s.get ⟨i.toNat, h.2⟩) rest
          else
            .panicked
        else
          .res none false (some ("path \"" ++ opathStr acc' ++ "\" not found"))
      | other =>
        .res none true (some ("path \"" ++ opathStr acc'.dropLast ++
          "\": expected array found \"" ++ valTypeName other ++ "\""))

/-- `GetNestedPath(path)`. -/
def getNestedPath (m : OM) (path : List OStep) : GetRes :=
  if path = [] then .res none false (some "path cannot be empty")
  else getNestedLoop [] (.vmap m.keys m.vals) path

/-- The map value of an `OM`, as stored in an `any` slot. -/
def vmapOf (m : OM) : Value := .vmap m.keys m.vals

/-- Result of the `SetNestedPath` traversal from some `current` value: the
value after mutation (auto-vivified intermediates stay attached even when a
later step errors, since Go mutates through pointers) together with the
returned error, or a runtime panic. -/
inductive SetRes where
  | done (newCurrent : Value) (err : Option String)
  | panicked
  deriving Repr

/-- The loop of `SetNestedPath`: walk `parents` (`path.WithoutLast()`),
auto-creating empty maps for missing map keys, then apply `lastKey`, which the
source requires to be a `MapStep` applied to a `*OrderedMap`.  The slice
bound test is the same `len(s) >= int(key)` as in `GetNestedPath`. -/
def setNestedLoop (full : List OStep) (acc : List OStep) (current : Value)
    (parents : List OStep) (last : OStep) (v : Value) : SetRes :=
  match parents with
  | [] =>
    match last with
    | .mapStep k =>
      match current with
      | .vmap ks vs => .done (vmapOf (omSet ⟨ks, vs⟩ k v)) none
      | other =>
        .done current (some ("path \"" ++ opathStr acc ++
          "\": expected object found \"" ++ valTypeName other ++ "\""))
    | .sliceStep i =>
      .done current (some ("path \"" ++ opathStr full ++
        "\": last key must be MapStep, found \"" ++ ostepTypeName (.sliceStep i) ++ "\""))
  | step :: rest =>
    let acc' := acc ++ [step]
    match step with
    | .mapStep k =>
      match current with
      | .vmap ks vs =>
        match omGet ⟨ks, vs⟩ k with
        | some v' =>
          match setNestedLoop full acc' v' rest last v with
          | .done newV' err => .done (vmapOf (omSet ⟨ks, vs⟩ k newV')) err
          | .panicked => .panicked
        | none =>
          match setNestedLoop full acc' (.vmap [] []) rest last v with
          | .done newV' err => .done (vmapOf (omSet ⟨ks, vs⟩ k newV')) err
          | .panicked => .panicked
      | other =>
        .done current (some ("path \"" ++ opathStr acc' ++
          "\": expected object found \"" ++ valTypeName other ++ "\""))
    | .sliceStep i =>
      match current with
      | .varr s =>
        if (s.length : Int) ≥ i then
          if h : 0 ≤ i ∧ i.toNat < s.length then
            match setNestedLoop full acc' (s.get ⟨i.toNat, h.2⟩) rest last v with
            | .done newElem err => .done (.varr (s.set i.toNat newElem)) err
            | .panicked => .panicked
          else
            .panicked
        else
          .done current (some ("path \"" ++ opathStr acc' ++ "\" not found"))
      | other =>
        .done current (some ("path \"" ++ opathStr acc'.dropLast ++
          "\": expected array found \"" ++ valTypeName other ++ "\""))

/-- Result of `SetNestedPath` on the root map. -/
inductive SetPathRes where
  | ok (m' : OM) (err : Option String)
  | panicked
  deriving Repr

/-- `SetNestedPath(path, value)`. -/
def setNestedPath (m : OM) (path : List OStep) (v : Value) : SetPathRes :=
  match path.getLast? with
  | none => .ok m (some "path cannot be empty")
  | some last =>
    match setNestedLoop path [] (.vmap m.keys m.vals) path.dropLast last v with
    | .done (.vmap ks vs) err => .ok ⟨ks, vs⟩ err
    | .done _ _ => .panicked
    | .panicked => .panicked

/-! JSON codec.  A well-formed JSON document is modelled at the token level:
`jobj` keeps the object's key/value pairs in source order and may contain
duplicate keys, exactly as the `json.Decoder` token stream presents them. -/

/-- A JSON document / token tree. -/
inductive JVal where
  | jnull
  | jbool (b : Bool)
  | jnum (n : Int)
  | jstr (s : String)
  | jarr (elems : List JVal)
  | jobj (pairs : List (String × JVal))
  deriving Repr

mutual

/-- Phase 1 of `UnmarshalJSON`: `json.Unmarshal(b, &o.values)`, the standard
library decode of a document into `any` — objects become Go maps
(`map[string]any`, duplicate keys: last assignment wins), arrays `[]any`. -/
def stdDecodeVal : JVal → Value
  | .jnull => .vnull
  | .jbool b => .vbool b
  | .jnum n => .vnum n
  | .jstr s => .vstr s
  | .jarr xs => .varr (stdDecodeArr xs)
  | .jobj ps => .vgomap (stdDecodeObj ps)

/-- Standard decode of an array's elements. -/
def stdDecodeArr : List JVal → List Value
  | [] => []
  | x :: rest => stdDecodeVal x :: stdDecodeArr rest

/-- Standard decode of an object's pairs into a Go map: the value of a
duplicated key is that of its last occurrence. -/
def stdDecodeObj : List (String × JVal) → List (String × Value)
  | [] => []
  | (k, jv) :: rest =>
    let restM := stdDecodeObj rest
    if (asGet restM k).isSome then restM else (k, stdDecodeVal jv) :: restM

end

/-- The duplicate-key branch of `decodeOrderedMap`:
`copy(o.keys[j:], o.keys[j+1:])` (shift everything after the first occurrence
`j` one slot left, keeping the length) followed by
`o.keys[len(o.keys)-1] = key` (overwrite the last slot with the key). -/
def goDupReappend (keys : List String) (k : String) : List String :=
  let j := (keys.takeWhile (· ≠ k)).length
  if j < keys.length then (keys.take j ++ keys.drop (j + 1)) ++ [k]
  else keys.dropLast ++ [k]

mutual

/-- The token loop of `decodeOrderedMap`: for each key token, append it to
`o.keys` (or, when already seen, remove its old position and re-append at the
end), then walk the value tokens, converting nested `map[string]any` values
(phase-1 artifacts found under the same key in `o.values`) into
`*OrderedMap` replacements. -/
def decodeOMLoop : List (String × JVal) → List String → List String →
    List (String × Value) → OM
  | [], _, keys, vals => ⟨keys, vals⟩
  | (k, .jobj sub) :: rest, hasKey, keys, vals =>
    let keys' := if k ∈ hasKey then goDupReappend keys k else keys ++ [k]
    match asGet vals k with
    | some (.vgomap g) =>
      decodeOMLoop rest (k :: hasKey) keys' (asSet vals k (vmapOf (decodeOMLoop sub [] [] g)))
    | some (.vmap _ vs₀) =>
      decodeOMLoop rest (k :: hasKey) keys' (asSet vals k (vmapOf (decodeOMLoop sub [] [] vs₀)))
    | _ => decodeOMLoop rest (k :: hasKey) keys' vals
  | (k, .jarr sub) :: rest, hasKey, keys, vals =>
    let keys' := if k ∈ hasKey then goDupReappend keys k else keys ++ [k]
    match asGet vals k with
    | some (.varr s) =>
      decodeOMLoop rest (k :: hasKey) keys' (asSet vals k (.varr (decodeSliceLoop sub 0 s)))
    | _ => decodeOMLoop rest (k :: hasKey) keys' vals
  | (k, _) :: rest, hasKey, keys, vals =>
    let keys' := if k ∈ hasKey then goDupReappend keys k else keys ++ [k]
    decodeOMLoop rest (k :: hasKey) keys' vals

/-- `decodeSlice`: walk the array's value tokens, converting the slice's
existing elements (phase-1 `map[string]any` objects and nested `[]any`) in
place; tokens past the end of the slice are decoded into throwaways. -/
def decodeSliceLoop : List JVal → Nat → List Value → List Value
  | [], _, s => s
  | .jobj sub :: restJ, idx, s =>
    let s' :=
      match s.get? idx with
      | some (.vgomap g) => s.set idx (vmapOf (decodeOMLoop sub [] [] g))
      | some (.vmap _ vs₀) => s.set idx (vmapOf (decodeOMLoop sub [] [] vs₀))
      | _ => s
    decodeSliceLoop restJ (idx + 1) s'
  | .jarr sub :: restJ, idx, s =>
    let s' :=
      match s.get? idx with
      | some (.varr inner) => s.set idx (.varr (decodeSliceLoop sub 0 inner))
      | _ => s
    decodeSliceLoop restJ (idx + 1) s'
  | _ :: restJ, idx, s => decodeSliceLoop restJ (idx + 1) s

end

/-- `UnmarshalJSON` on a (well-formed) document: phase 1 decodes the object
into the `o.values` map, phase 2 re-reads the token stream to build `o.keys`
and convert nested objects; a non-object document is a decode error. -/
def unmarshalJSONDoc (doc : JVal) : Option OM :=
  match doc with
  | .jobj pairs => some (decodeOMLoop pairs [] [] (stdDecodeObj pairs))
  | _ => none

/-- Insertion sort by key (Go's `encoding/json` emits plain map keys in sorted
order). -/
def insertSorted (p : String × JVal) : List (String × JVal) → List (String × JVal)
  | [] => [p]
  | q :: rest => if p.1 ≤ q.1 then p :: q :: rest else q :: insertSorted p rest

/-- Sort an object pair list by key. -/
def sortByKey : List (String × JVal) → List (String × JVal)
  | [] => []
  | p :: rest => insertSorted p (sortByKey rest)

/-- `sizeOf` of a value found in an association list is below the list's. -/
theorem asGet_sizeOf_lt {l : List (String × Value)} {k : String} {v : Value}
    (h : asGet l k = some v) : sizeOf v < sizeOf l := by
  induction l with
  | nil => simp [asGet] at h
  | cons p rest ih =>
    obtain ⟨k', v'⟩ := p
    by_cases hk : k' = k
    · simp [asGet, hk] at h
      subst h
      simp
      omega
    · simp [asGet, hk] at h
      have := ih h
      simp
      omega

mutual

/-- `MarshalJSON` at the token level: one pair per key of `o.keys`, in order,
with the value fetched from `o.values` (`nil`, hence `null`, if absent). -/
def marshalDocOM : List String → List (String × Value) → List (String × JVal)
  | [], _ => []
  | k :: ks, vals =>
    match h : asGet vals k with
    | some v => (k, marshalDocVal v) :: marshalDocOM ks vals
    | none => (k, .jnull) :: marshalDocOM ks vals
termination_by ks vals => (sizeOf vals, sizeOf ks)
decreasing_by
  all_goals first
    | exact Prod.Lex.left _ _ (asGet_sizeOf_lt h)
    | (apply Prod.Lex.right; simp; omega)
    | (apply Prod.Lex.left; simp; omega)
    | (simp; omega)

/-- Encoding of one stored value: a nested `*OrderedMap` encodes through its
own `MarshalJSON` (keys order), a plain Go map through the standard encoder
(keys sorted). -/
def marshalDocVal : Value → JVal
  | .vmap ks vs => .jobj (marshalDocOM ks vs)
  | .vgomap g => .jobj (sortByKey (marshalGoMapPairs g))
  | .varr xs => .jarr (marshalDocArr xs)
  | .vstr s => .jstr s
  | .vnum n => .jnum n
  | .vbool b => .jbool b
  | .vnull => .jnull
termination_by v => (sizeOf v, 0)

/-- Encoding of an array's elements. -/
def marshalDocArr : List Value → List JVal
  | [] => []
  | x :: rest => marshalDocVal x :: marshalDocArr rest
termination_by xs => (sizeOf xs, 0)

/-- Encoding of a Go map's pairs (before key sorting). -/
def marshalGoMapPairs : List (String × Value) → List (String × JVal)
  | [] => []
  | (k, v) :: rest => (k, marshalDocVal v) :: marshalGoMapPairs rest
termination_by l => (sizeOf l, 0)

end

/-- The key-sequence part of `decodeOrderedMap` in isolation: the evolution of
`(hasKey, o.keys)` over the sequence of key tokens. -/
def buildKeys (hasKey keys : List String) : List String → List String
  | [] => keys
  | k :: rest =>
    if k ∈ hasKey then buildKeys (k :: hasKey) (goDupReappend keys k) rest
    else buildKeys (k :: hasKey) (keys ++ [k]) rest

/-! Association-list lemmas used by the invariant proofs. -/

theorem asGet_asSet (l : List (String × Value)) (k : String) (v : Value) (k' : String) :
    asGet (asSet l k v) k' = if k' = k then some v else asGet l k' := by
  induction l with
  | nil =>
    by_cases h : k' = k
    · simp [asSet, asGet, h]
    · simp [asSet, asGet, h, Ne.symm h]
  | cons p rest ih =>
    obtain ⟨k₀, v₀⟩ := p
    by_cases h0 : k₀ = k
    · subst h0
      by_cases h1 : k₀ = k'
      · simp [asSet, asGet, h1]
      · simp [asSet, asGet, h1, Ne.symm h1]
    · by_cases h1 : k₀ = k'
      · subst h1
        simp [asSet, asGet, h0, Ne.symm h0]
      · simp [asSet, asGet, h0, h1, ih]

theorem isSome_asGet_iff_mem (l : List (String × Value)) (k : String) :
    (asGet l k).isSome ↔ k ∈ l.map Prod.fst := by
  induction l with
  | nil => simp [asGet]
  | cons p rest ih =>
    obtain ⟨k₀, v₀⟩ := p
    by_cases h0 : k₀ = k
    · simp [asGet, h0]
    · simp [asGet, h0, ih, Ne.symm h0]

theorem map_fst_asErase (l : List (String × Value)) (k : String) :
    (asErase l k).map Prod.fst = (l.map Prod.fst).erase k := by
  induction l with
  | nil => simp [asErase]
  | cons p rest ih =>
    obtain ⟨k₀, v₀⟩ := p
    by_cases h0 : k₀ = k
    · subst h0
      simp [asErase, List.erase_cons_head]
    · simp [asErase, h0, ih, List.erase_cons_tail, h0]

theorem asGet_asErase_of_nodup {l : List (String × Value)}
    (hnd : (l.map Prod.fst).Nodup) (k k' : String) :
    asGet (asErase l k) k' = if k' = k then none else asGet l k' := by
  induction l with
  | nil =>
    by_cases h : k' = k <;> simp [asErase, asGet, h]
  | cons p rest ih =>
    obtain ⟨k₀, v₀⟩ := p
    simp only [List.map_cons, List.nodup_cons] at hnd
    by_cases h0 : k₀ = k
    · subst h0
      by_cases h1 : k' = k₀
      · subst h1
        have hnot : k' ∉ rest.map Prod.fst := hnd.1
        rw [← isSome_asGet_iff_mem] at hnot
        simp [asErase, asGet]
        cases hh : asGet rest k' with
        | none => rfl
        | some v => rw [hh] at hnot; simp at hnot
      · simp [asErase, asGet, h1, Ne.symm h1]
    · by_cases h1 : k' = k₀
      · subst h1
        have h2 : ¬ k' = k := fun h => h0 (h ▸ rfl)
        simp [asErase, asGet, h0, h2]
      · simp [asErase, asGet, h0, Ne.symm h1, ih hnd.2]

theorem map_fst_asSet (l : List (String × Value)) (k : String) (v : Value) :
    (asSet l k v).map Prod.fst =
      if k ∈ l.map Prod.fst then l.map Prod.fst else l.map Prod.fst ++ [k] := by
  induction l with
  | nil => simp [asSet]
  | cons p rest ih =>
    obtain ⟨k₀, v₀⟩ := p
    by_cases h0 : k₀ = k
    · subst h0
      simp [asSet]
    · by_cases h1 : k ∈ rest.map Prod.fst <;>
        simp [asSet, h0, Ne.symm h0, ih, h1]

/-! The structural invariant of `OrderedMap` (claim C9). -/

/-- A mutation of the map: one `Set` or one `Delete` call. -/
inductive MOp where
  | set (k : String) (v : Value)
  | del (k : String)

/-- Apply one mutation. -/
def applyOp (m : OM) : MOp → OM
  | .set k v => omSet m k v
  | .del k => omDelete m k

/-- Run a sequence of mutations from `New()`. -/
def runOps (ops : List MOp) : OM := ops.foldl applyOp omNew

/-- The internal invariant: the order sequence has no duplicates, the value
table's key list has no duplicates, and both hold the same key set. -/
def OMInv (m : OM) : Prop :=
  m.keys.Nodup ∧ (m.vals.map Prod.fst).Nodup ∧
    ∀ k, k ∈ m.keys ↔ k ∈ m.vals.map Prod.fst

theorem OMInv_new : OMInv omNew := by
  refine ⟨List.nodup_nil, List.nodup_nil, ?_⟩
  simp [omNew]

theorem OMInv_applyOp {m : OM} (h : OMInv m) (op : MOp) : OMInv (applyOp m op) := by
  obtain ⟨hk, hv, hiff⟩ := h
  cases op with
  | set k v =>
    simp only [applyOp, omSet]
    by_cases hmem : (asGet m.vals k).isSome
    · have hkm : k ∈ m.vals.map Prod.fst := (isSome_asGet_iff_mem _ _).1 hmem
      refine ⟨by simpa [hmem] using hk, ?_, ?_⟩
      · simpa [map_fst_asSet, hkm] using hv
      · intro k'
        simp [hmem, map_fst_asSet, hkm, hiff]
    · have hkm : k ∉ m.vals.map Prod.fst := by
        intro hc
        exact hmem ((isSome_asGet_iff_mem _ _).2 hc)
      have hkk : k ∉ m.keys := fun hc => hkm ((hiff k).1 hc)
      refine ⟨?_, ?_, ?_⟩
      · simpa [hmem] using List.Nodup.append hk (List.nodup_singleton k)
          (by simpa using hkk)
      · rw [map_fst_asSet]
        simp only [hkm, if_false]
        exact List.Nodup.append hv (List.nodup_singleton k) (by simpa using hkm)
      · intro k'
        simp [hmem, map_fst_asSet, hkm, hiff]
  | del k =>
    simp only [applyOp, omDelete]
    by_cases hmem : (asGet m.vals k).isSome
    · simp only [hmem, if_true]
      refine ⟨hk.erase k, ?_, ?_⟩
      · rw [map_fst_asErase]
        exact hv.erase k
      · intro k'
        rw [map_fst_asErase, hk.mem_erase_iff, hv.mem_erase_iff, hiff]
    · simpa [hmem] using ⟨hk, hv, hiff⟩

theorem OMInv_runOps (ops : List MOp) : OMInv (runOps ops) := by
  suffices h : ∀ (l : List MOp) (m : OM), OMInv m → OMInv (l.foldl applyOp m) by
    exact h ops omNew OMInv_new
  intro l
  induction l with
  | nil => intro m hm; exact hm
  | cons op rest ih =>
    intro m hm
    exact ih _ (OMInv_applyOp hm op)

/-- C9 — OrderedMap structural invariant.  Starting from `New()`, after any
sequence of `Set` and `Delete` operations the key sequence contains every key
exactly once and holds exactly the key set of the value table; moreover
`Delete` of an absent key is a no-op. -/
theorem C9_orderedmap_invariant :
    (∀ ops : List MOp,
        (runOps ops).keys.Nodup ∧
        (∀ k, k ∈ (runOps ops).keys ↔ k ∈ (runOps ops).vals.map Prod.fst)) ∧
    (∀ (m : OM) (k : String), asGet m.vals k = none → omDelete m k = m) := by
  constructor
  · intro ops
    obtain ⟨h1, _, h3⟩ := OMInv_runOps ops
    exact ⟨h1, h3⟩
  · intro m k h
    simp [omDelete, h]

/-- Witness for C9 at concrete inputs. -/
theorem C9_orderedmap_invariant_witness :
    (runOps [.set "a" (.vnum 1), .del "b", .set "c" (.vnum 2), .del "a"]).keys.Nodup ∧
    omDelete omNew "zz" = omNew :=
  ⟨(C9_orderedmap_invariant.1 [.set "a" (.vnum 1), .del "b", .set "c" (.vnum 2), .del "a"]).1,
   C9_orderedmap_invariant.2 omNew "zz" rfl⟩

/-- C7 — insertion-order stability of `Set`: `Set` appends the key to the
order sequence only when absent, always overwrites the stored value, and
updating an existing key does not move it; in particular
`Set("b",1); Set("a",1); Set("b",2)` yields `Keys() == ["b","a"]`. -/
theorem C7_set_insertion_order :
    (∀ (m : OM) (k : String) (v : Value),
        ((asGet m.vals k).isSome → (omSet m k v).keys = m.keys) ∧
        ((asGet m.vals k).isSome = false → (omSet m k v).keys = m.keys ++ [k]) ∧
        omGet (omSet m k v) k = some v) ∧
    omKeys (omSet (omSet (omSet omNew "b" (.vnum 1)) "a" (.vnum 1)) "b" (.vnum 2)) =
      ["b", "a"] := by
  constructor
  · intro m k v
    refine ⟨fun h => by simp [omSet, h], fun h => by simp [omSet, h], ?_⟩
    simp [omGet, omSet, asGet_asSet]
  · rfl

/-- Witness for C7 at concrete inputs. -/
theorem C7_set_insertion_order_witness :
    (omSet (omSet omNew "b" (.vnum 1)) "b" (.vnum 7)).keys = (omSet omNew "b" (.vnum 1)).keys ∧
    (omSet omNew "q" (.vnum 5)).keys = omNew.keys ++ ["q"] :=
  ⟨(C7_set_insertion_order.1 (omSet omNew "b" (.vnum 1)) "b" (.vnum 7)).1 rfl,
   (C7_set_insertion_order.1 omNew "q" (.vnum 5)).2.1 rfl⟩

/-- C3 — out-of-bounds sequence index in `GetNestedPath`.  The source's bound
check `len(s) >= int(key)` lets `key == len(s)` through to the index
expression `s[key]`, which panics; only `key > len(s)` produces the
"not found" error the package's own tests (`TestOrderedMapGetNested`,
`"nested.slice[3]"` against a 3-element slice) expect.  This theorem
evaluates the embedded code at the failing input. -/
theorem C3_get_out_of_bounds_panics :
    getNestedPath ⟨["slice"], [("slice", .varr [.vnum 1, .vnum 2, .vnum 3])]⟩
        [.mapStep "slice", .sliceStep 3] = .panicked ∧
    getNestedPath ⟨["slice"], [("slice", .varr [.vnum 1, .vnum 2, .vnum 3])]⟩
        [.mapStep "slice", .sliceStep 4] =
      .res none false (some "path \"slice[4]\" not found") := by
  constructor <;> rfl

/-- C6 counterexample — `SetNestedPath(m, ["parent","children",2], "x")` does
not succeed: the source rejects any path whose final step is not a `MapStep`,
so the call returns the "last key must be MapStep" error (after having
auto-vivified the two intermediate maps), not a nil error. -/
theorem C6_counterexample_last_step_slice :
    setNestedPath omNew [.mapStep "parent", .mapStep "children", .sliceStep 2] (.vstr "x") =
      .ok ⟨["parent"], [("parent", .vmap ["children"] [("children", .vmap [] [])])]⟩
        (some "path \"parent.children[2]\": last key must be MapStep, found \"orderedmap.SliceStep\"") := by
  rfl

/-- C6 (amended) — a `SetNestedPath` whose final step is a sequence index
returns the error `last key must be MapStep`; for a path ending in a map-key
step, set-then-get round-trips (`("x", true, nil)`); and `GetNestedPath`
through a non-existent intermediate map key returns `(nil, false, error)`
with the error naming the path up to and including the missing segment. -/
theorem C6_nested_set_then_get :
    (∃ m', setNestedPath omNew [.mapStep "parent", .mapStep "children", .sliceStep 2] (.vstr "x") =
        .ok m' (some "path \"parent.children[2]\": last key must be MapStep, found \"orderedmap.SliceStep\"")) ∧
    (∃ m₂, setNestedPath omNew [.mapStep "parent", .mapStep "children"] (.vstr "x") =
        .ok m₂ none ∧
      getNestedPath m₂ [.mapStep "parent", .mapStep "children"] =
        .res (some (.vstr "x")) true none) ∧
    (∀ (acc : List OStep) (ks : List String) (vs : List (String × Value))
        (k : String) (rest : List OStep), asGet vs k = none →
      getNestedLoop acc (.vmap ks vs) (.mapStep k :: rest) =
        .res none false (some ("path \"" ++ opathStr (acc ++ [.mapStep k]) ++ "\" not found"))) := by
  refine ⟨⟨_, rfl⟩, ⟨_, rfl, rfl⟩, ?_⟩
  intro acc ks vs k rest h
  simp [getNestedLoop, omGet, h]

/-- Witness for C6 (amended) at concrete inputs. -/
theorem C6_nested_set_then_get_witness :
    getNestedLoop [] (.vmap ["a"] [("a", .vnum 1)]) [.mapStep "missing"] =
      .res none false (some ("path \"" ++ opathStr ([] ++ [.mapStep "missing"]) ++ "\" not found")) :=
  C6_nested_set_then_get.2.2 [] ["a"] [("a", .vnum 1)] "missing" [] rfl

/-! Claims about the JSON codec (C4, C8). -/

theorem takeWhile_ne_length_lt {k : String} :
    ∀ {l : List String}, k ∈ l → ((l.takeWhile (· ≠ k)).length < l.length) := by
  intro l
  induction l with
  | nil => intro h; simp at h
  | cons a rest ih =>
    intro hmem
    by_cases hak : a = k
    · subst hak
      simp [List.takeWhile_cons]
    · have hkrest : k ∈ rest := by
        rcases List.mem_cons.1 hmem with h | h
        · exact absurd h.symm hak
        · exact h
      simpa [List.takeWhile_cons, hak] using ih hkrest

/-- On re-encountering a known key, the shift-and-overwrite of
`decodeOrderedMap` removes the key's old order position and re-appends the
key at the end. -/
theorem goDupReappend_eq_erase_append :
    ∀ (keys : List String) (k : String), k ∈ keys →
      goDupReappend keys k = keys.erase k ++ [k] := by
  intro keys
  induction keys with
  | nil => intro k h; simp at h
  | cons a rest ih =>
    intro k hmem
    by_cases hak : a = k
    · subst hak
      simp [goDupReappend, List.takeWhile_cons, List.erase_cons_head]
    · have hkrest : k ∈ rest := by
        rcases List.mem_cons.1 hmem with h | h
        · exact absurd h.symm hak
        · exact h
      have htw := takeWhile_ne_length_lt hkrest
      have ihr := ih k hkrest
      simp only [goDupReappend, List.takeWhile_cons] at ihr ⊢
      have hd : decide (a ≠ k) = true := by simp [hak]
      rw [if_pos htw] at ihr
      simp only [hd, if_true, eq_self_iff_true, List.length_cons]
      rw [if_pos (by omega :
        (List.takeWhile (fun x => decide (x ≠ k)) rest).length + 1 < rest.length + 1)]
      simp only [List.take_succ_cons, List.drop_succ_cons, List.cons_append]
      rw [List.erase_cons_tail (by simp [hak])]
      simp only [List.cons_append]
      rw [ihr]

/-- C4 — duplicate-key JSON decode semantics: decoding
`{"a":1,"b":2,"a":3}` yields `Keys() == ["b","a"]` and `Get("a") == 3`
(value of the last occurrence, order position of the last occurrence); and in
general, on re-encountering a known key the decoder removes the key's old
order position and re-appends it at the end. -/
theorem C4_duplicate_key_decode :
    (unmarshalJSONDoc (.jobj [("a", .jnum 1), ("b", .jnum 2), ("a", .jnum 3)]) =
      some ⟨["b", "a"], [("b", .vnum 2), ("a", .vnum 3)]⟩) ∧
    (omGet ⟨["b", "a"], [("b", .vnum 2), ("a", .vnum 3)]⟩ "a" = some (.vnum 3)) ∧
    (∀ (keys : List String) (k : String), k ∈ keys →
      goDupReappend keys k = keys.erase k ++ [k]) := by
  refine ⟨?_, by rfl, goDupReappend_eq_erase_append⟩
  simp [unmarshalJSONDoc, decodeOMLoop, stdDecodeObj, stdDecodeVal, asGet, goDupReappend,
    List.takeWhile]

/-- Witness for C4 at concrete inputs. -/
theorem C4_duplicate_key_decode_witness :
    goDupReappend ["a", "b"] "a" = (["a", "b"].erase "a") ++ ["a"] :=
  C4_duplicate_key_decode.2.2 ["a", "b"] "a" (by simp)

/-! Byte-level JSON encoding, for the `MarshalJSON` output format.  The Go
encoder escapes `"`, `\`, control characters and (HTML-escaping default)
`<`, `>`, `&`; the model covers the escapes exercised here. -/

/-- Encoding of one character inside a JSON string. -/
def jsonEncChar (c : Char) : String :=
  if c = '"' then "\\\""
  else if c = '\\' then "\\\\"
  else if c = '\n' then "\\n"
  else if c = '\r' then "\\r"
  else if c = '\t' then "\\t"
  else if c = '<' then "\\u003c"
  else if c = '>' then "\\u003e"
  else if c = '&' then "\\u0026"
  else String.singleton c

/-- JSON string literal encoding. -/
def jsonEncStr (s : String) : String :=
  "\"" ++ String.join (s.toList.map jsonEncChar) ++ "\""

mutual

/-- Compact byte rendering of a token tree (what `json.Encoder.Encode`
produces for one value, before its trailing newline). -/
def jvalBytes : JVal → String
  | .jnull => "null"
  | .jbool true => "true"
  | .jbool false => "false"
  | .jnum n => toString n
  | .jstr s => jsonEncStr s
  | .jarr xs => "[" ++ String.intercalate "," (jvalBytesArr xs) ++ "]"
  | .jobj ps => "\x7b" ++ String.intercalate "," (jvalBytesObj ps) ++ "\x7d"

/-- Byte rendering of array elements. -/
def jvalBytesArr : List JVal → List String
  | [] => []
  | x :: rest => jvalBytes x :: jvalBytesArr rest

/-- Byte rendering of object pairs. -/
def jvalBytesObj : List (String × JVal) → List String
  | [] => []
  | (k, v) :: rest => (jsonEncStr k ++ ":" ++ jvalBytes v) :: jvalBytesObj rest

end

/-- The exact bytes produced by `OrderedMap.MarshalJSON`: `{`, then for each
key (in `o.keys` order, `,`-separated) the `json.Encoder.Encode` output of
the key (encoded key plus a trailing newline), a `:`, and the `Encode`
output of the value (compact value plus a trailing newline), then `}`. -/
def marshalJSONBytes (m : OM) : String :=
  "\x7b" ++ String.intercalate ","
      ((marshalDocOM m.keys m.vals).map
        (fun p => jsonEncStr p.1 ++ "\n" ++ ":" ++ jvalBytes p.2 ++ "\n")) ++
    "\x7d"

/-- The keys emitted by `MarshalJSON` are exactly `o.keys`, in order. -/
theorem marshalDocOM_map_fst (ks : List String) (vals : List (String × Value)) :
    (marshalDocOM ks vals).map Prod.fst = ks := by
  induction ks with
  | nil => simp [marshalDocOM]
  | cons k rest ih =>
    simp only [marshalDocOM]
    split <;> simp [ih]

/-- The key sequence built by the decode walk depends only on the stream of
key tokens. -/
theorem decodeOMLoop_keys (pairs : List (String × JVal)) :
    ∀ (hasKey keys : List String) (vals : List (String × Value)),
      (decodeOMLoop pairs hasKey keys vals).keys =
        buildKeys hasKey keys (pairs.map Prod.fst) := by
  induction pairs with
  | nil => intro hasKey keys vals; simp [decodeOMLoop, buildKeys]
  | cons p rest ih =>
    obtain ⟨k, jv⟩ := p
    intro hasKey keys vals
    cases jv with
    | jobj sub =>
      cases hv : asGet vals k with
      | none => simp [decodeOMLoop, hv, ih, buildKeys] <;> (try (split <;> rfl))
      | some v =>
        cases v <;> simp [decodeOMLoop, hv, ih, buildKeys] <;> (try (split <;> rfl))
    | jarr sub =>
      cases hv : asGet vals k with
      | none => simp [decodeOMLoop, hv, ih, buildKeys] <;> (try (split <;> rfl))
      | some v =>
        cases v <;> simp [decodeOMLoop, hv, ih, buildKeys] <;> (try (split <;> rfl))
    | jnull => simp [decodeOMLoop, ih, buildKeys] <;> (try (split <;> rfl))
    | jbool b => simp [decodeOMLoop, ih, buildKeys] <;> (try (split <;> rfl))
    | jnum n => simp [decodeOMLoop, ih, buildKeys] <;> (try (split <;> rfl))
    | jstr s => simp [decodeOMLoop, ih, buildKeys] <;> (try (split <;> rfl))

/-- With no duplicate key tokens (none already seen), the decode walk appends
the keys in stream order. -/
theorem buildKeys_nodup_append :
    ∀ (l hasKey acc : List String), l.Nodup → (∀ x ∈ l, x ∉ hasKey) →
      buildKeys hasKey acc l = acc ++ l := by
  intro l
  induction l with
  | nil => intro hasKey acc _ _; simp [buildKeys]
  | cons k rest ih =>
    intro hasKey acc hnd hdisj
    have hk : k ∉ hasKey := hdisj k (by simp)
    have hnd' := (List.nodup_cons.1 hnd)
    rw [buildKeys, if_neg hk, ih (k :: hasKey) (acc ++ [k]) hnd'.2]
    · simp
    · intro x hx
      simp only [List.mem_cons]
      rintro (hxk | hxh)
      · exact hnd'.1 (hxk ▸ hx)
      · exact hdisj x (by simp [hx]) hxh

/-- C8 — JSON round-trip order preservation: `MarshalJSON` emits keys exactly
in the order sequence's order; for every duplicate-free `OrderedMap`,
decoding the marshalled document reconstructs the same key order; and the
`{"z":1,"a":2,"b":3}` example round-trips with key order `["z","a","b"]`
(the raw `MarshalJSON` bytes carry the `json.Encoder` trailing newlines). -/
theorem C8_json_round_trip_order :
    (marshalJSONBytes ⟨["z", "a", "b"], [("z", .vnum 1), ("a", .vnum 2), ("b", .vnum 3)]⟩ =
      "\x7b\"z\"\n:1\n,\"a\"\n:2\n,\"b\"\n:3\n\x7d") ∧
    (∀ m : OM, (marshalDocOM m.keys m.vals).map Prod.fst = m.keys) ∧
    (∀ m : OM, m.keys.Nodup →
      (unmarshalJSONDoc (.jobj (marshalDocOM m.keys m.vals))).map OM.keys = some m.keys) ∧
    (unmarshalJSONDoc
        (.jobj (marshalDocOM ["z", "a", "b"] [("z", .vnum 1), ("a", .vnum 2), ("b", .vnum 3)])) =
      some ⟨["z", "a", "b"], [("z", .vnum 1), ("a", .vnum 2), ("b", .vnum 3)]⟩) := by
  refine ⟨?_, fun m => marshalDocOM_map_fst m.keys m.vals, ?_, ?_⟩
  · simp [marshalJSONBytes, marshalDocOM, marshalDocVal, asGet, jvalBytes, jsonEncStr,
      jsonEncChar, String.singleton]
    rfl
  · intro m hnd
    have hkeys : (decodeOMLoop (marshalDocOM m.keys m.vals) [] []
        (stdDecodeObj (marshalDocOM m.keys m.vals))).keys = m.keys := by
      rw [decodeOMLoop_keys, marshalDocOM_map_fst,
        buildKeys_nodup_append m.keys [] [] hnd (by simp)]
      simp
    simp [unmarshalJSONDoc, hkeys]
  · simp [unmarshalJSONDoc, decodeOMLoop, stdDecodeObj, stdDecodeVal, asGet, asSet,
      marshalDocOM, marshalDocVal]

/-- Witness for C8 at a concrete duplicate-free map. -/
theorem C8_json_round_trip_order_witness :
    (unmarshalJSONDoc (.jobj (marshalDocOM (OM.mk ["x"] [("x", .vnum 9)]).keys
        (OM.mk ["x"] [("x", .vnum 9)]).vals))).map OM.keys = some ["x"] :=
  C8_json_round_trip_order.2.2.1 ⟨["x"], [("x", .vnum 9)]⟩ (by simp)

end OrderedMapModel

namespace KeysAliasModel

/-!
Reference-level model for `Keys()` aliasing (claim C10).  Go slices are
references into backing storage; to express aliasing, the keys slice of a map
lives in a heap of string-slice cells and a slice value is an address.
`Keys()` is `return o.keys`: it hands out the map's own address, allocating
nothing — contrast `keysDefensive`, the defensive-copy alternative the spec
discusses, which allocates a fresh cell.
-/

/-- Heap of string-slice backing arrays, addressed by index. -/
structure SliceHeap where
  cells : List (List String)

/-- An `*OrderedMap`, reduced to the address of its `keys` backing array. -/
structure OMRef where
  keysAddr : Nat

/-- `Keys()`: `return o.keys` — the internal slice itself, no copy, and no
heap allocation. -/
def keysFn (m : OMRef) : Nat := m.keysAddr

/-- Read a slice's contents. -/
def readSlice (h : SliceHeap) (a : Nat) : List String :=
  (h.cells[a]?).getD []

/-- Write `s` at index `i` through a slice reference (`ks[i] = s`). -/
def writeSlice (h : SliceHeap) (a : Nat) (i : Nat) (s : String) : SliceHeap :=
  ⟨h.cells.set a ((readSlice h a).set i s)⟩

/-- What `Keys()`, iteration and `MarshalJSON` observe as the key order: they
all read `o.keys` through the map's own reference. -/
def observedOrder (h : SliceHeap) (m : OMRef) : List String :=
  readSlice h (keysFn m)

/-- The defensive-copy alternative: allocate a fresh cell holding a copy of
the keys and return its address. -/
def keysDefensive (h : SliceHeap) (m : OMRef) : Nat × SliceHeap :=
  (h.cells.length, ⟨h.cells ++ [readSlice h (keysFn m)]⟩)

theorem readSlice_writeSlice_self (h : SliceHeap) (a i : Nat) (s : String) :
    readSlice (writeSlice h a i s) a = (readSlice h a).set i s := by
  by_cases hin : a < h.cells.length
  · simp [readSlice, writeSlice, List.getElem?_set, hin]
  · have hnone : h.cells[a]? = none := List.getElem?_eq_none (by omega)
    simp [readSlice, writeSlice, List.getElem?_set, hin, hnone]

theorem observed_write (h : SliceHeap) (m : OMRef) (i : Nat) (s : String) :
    observedOrder (writeSlice h (keysFn m) i s) m = (observedOrder h m).set i s :=
  readSlice_writeSlice_self h (keysFn m) i s

/-- C10 — `Keys()` returns the live internal order sequence, not a defensive
copy: writing through the returned slice changes the order observed by every
subsequent `Keys()`/iteration/marshal, and the returned reference is always
the map's own; by contrast, a write through a defensive copy leaves the
map's observed order unchanged. -/
theorem C10_keys_returns_live_alias :
    ∀ (h : SliceHeap) (m : OMRef) (i : Nat) (s : String),
      (observedOrder (writeSlice h (keysFn m) i s) m = (observedOrder h m).set i s) ∧
      (keysFn m = m.keysAddr) ∧
      (∀ hlt : i < (observedOrder h m).length, s ≠ (observedOrder h m).get ⟨i, hlt⟩ →
        observedOrder (writeSlice h (keysFn m) i s) m ≠ observedOrder h m) ∧
      (m.keysAddr < h.cells.length →
        observedOrder (writeSlice (keysDefensive h m).2 (keysDefensive h m).1 i s) m =
          observedOrder h m) := by
  intro h m i s
  refine ⟨observed_write h m i s, rfl, ?_, ?_⟩
  · intro hlt hne hcontra
    rw [observed_write] at hcontra
    have h1 : ((observedOrder h m).set i s)[i]? = some s := by
      simp [List.getElem?_set, hlt]
    rw [hcontra] at h1
    rw [List.getElem?_eq_getElem hlt] at h1
    exact hne (by simpa using h1.symm)
  · intro hin
    simp only [observedOrder, keysDefensive, writeSlice, keysFn, readSlice]
    rw [List.set_append_right _ _ (le_refl _)]
    rw [List.getElem?_append]
    simp [hin]

/-- Witness for C10 at a concrete heap and map. -/
theorem C10_keys_returns_live_alias_witness :
    (observedOrder (writeSlice ⟨[["a", "b"]]⟩ (keysFn ⟨0⟩) 0 "z") ⟨0⟩ ≠
      observedOrder ⟨[["a", "b"]]⟩ ⟨0⟩) ∧
    (observedOrder (writeSlice (keysDefensive ⟨[["a", "b"]]⟩ ⟨0⟩).2
        (keysDefensive ⟨[["a", "b"]]⟩ ⟨0⟩).1 0 "z") ⟨0⟩ =
      observedOrder ⟨[["a", "b"]]⟩ ⟨0⟩) :=
  ⟨(C10_keys_returns_live_alias ⟨[["a", "b"]]⟩ ⟨0⟩ 0 "z").2.2.1 (by decide) (by decide),
   (C10_keys_returns_live_alias ⟨[["a", "b"]]⟩ ⟨0⟩ 0 "z").2.2.2 (by decide)⟩

end KeysAliasModel

namespace DeepCopyModel

open OrderedMapModel (replace2)

/-!
Embedding of `pkg/deepcopy` (`Copy`, i.e. `CopyTranslateSteps` with a nil
`TranslateFn`).  Go values form a graph: a non-nil pointer is an address into
a heap of cells.  The original heap `H` is read-only; clones are allocated in
a separate region whose cell `i` has address `H.length + i`, so clone
addresses never collide with original ones.  `translateRecursive` is modelled
as a fuel-indexed interpreter over a task type (one task per loop of the
source: the node dispatch, and the field/element/entry iterations); fuel
decreases by one on every call, so the interpreter is structurally recursive
and computable, and a run that returns a result is fuel-independent above its
depth.
-/

/-- A Go runtime value.  `vstruct` fields carry `(name, exported?, value)`;
`vomap` is the `orderedmap.OrderedMap` object a `*OrderedMap` points to
(custom-copy hook); type names are carried where `reflect` would supply
them. -/
inductive GoVal where
  | vbool (b : Bool)
  | vint (n : Int)
  | vstr (s : String)
  | vptr (tn : String) (addr : Nat)
  | vptrNil (tn : String)
  | viface (v : GoVal)
  | vifaceNil
  | vstruct (tn : String) (fields : List (String × Bool × GoVal))
  | vslice (elems : List GoVal)
  | vsliceNil
  | vgomap (pairs : List (GoVal × GoVal))
  | vgomapNil
  | vomap (keys : List String) (entries : List (String × GoVal))
  deriving Repr

/-- The concrete type name `reflect` reports for a value. -/
def goTypeName : GoVal → String
  | .vbool _ => "bool"
  | .vint _ => "int"
  | .vstr _ => "string"
  | .vptr tn _ => tn
  | .vptrNil tn => tn
  | .viface _ => "interface \x7b\x7d"
  | .vifaceNil => "interface \x7b\x7d"
  | .vstruct tn _ => tn
  | .vslice _ => "[]interface \x7b\x7d"
  | .vsliceNil => "[]interface \x7b\x7d"
  | .vgomap _ => "map[string]interface \x7b\x7d"
  | .vgomapNil => "map[string]interface \x7b\x7d"
  | .vomap _ _ => "orderedmap.OrderedMap"

/-- `%v` of a map key (only scalar keys are rendered in this model). -/
def goVStr : GoVal → String
  | .vstr s => s
  | .vint n => toString n
  | .vbool true => "true"
  | .vbool false => "false"
  | v => goTypeName v

mutual

/-- Go `%#v` of a value, as far as the panic message needs it (strings are
rendered unescaped). -/
def goDump : GoVal → String
  | .vbool true => "true"
  | .vbool false => "false"
  | .vint n => toString n
  | .vstr s => "\"" ++ s ++ "\""
  | .vptr tn _ => "(" ++ tn ++ ")"
  | .vptrNil tn => "(" ++ tn ++ ")(nil)"
  | .viface v => goDump v
  | .vifaceNil => "<nil>"
  | .vstruct tn fields => tn ++ "\x7b" ++ String.intercalate ", " (goDumpFields fields) ++ "\x7d"
  | .vslice xs => "[]interface \x7b\x7d\x7b" ++ String.intercalate ", " (goDumpList xs) ++ "\x7d"
  | .vsliceNil => "[]interface \x7b\x7d(nil)"
  | .vgomap _ => "map[string]interface \x7b\x7d"
  | .vgomapNil => "map[string]interface \x7b\x7d(nil)"
  | .vomap _ _ => "orderedmap.OrderedMap"

/-- `%#v` of struct fields. -/
def goDumpFields : List (String × Bool × GoVal) → List String
  | [] => []
  | (n, _, v) :: rest => (n ++ ":" ++ goDump v) :: goDumpFields rest

/-- `%#v` of slice elements. -/
def goDumpList : List GoVal → List String
  | [] => []
  | v :: rest => goDump v :: goDumpList rest

end

/-- A step of the deepcopy `Path` (including the two orderedmap step types the
`HandleDeepCopy` hook appends). -/
inductive DStep where
  | typeStep (t : String)
  | pointerStep
  | interfaceStep (t : String)
  | structFieldStep (t : String) (f : String)
  | sliceIndexStep (i : Nat)
  | mapKeyStep (k : String)
  | mapKeyValueStep (k : String)
  | omMapStep (k : String)
  | omMapKeyStep (k : String)
  deriving Repr, DecidableEq

/-- `Step.String()` of each deepcopy path step. -/
def dstepStr : DStep → String
  | .typeStep t => t
  | .pointerStep => "*"
  | .interfaceStep t => "interface[" ++ t ++ "]"
  | .structFieldStep t f => t ++ "[" ++ f ++ "]"
  | .sliceIndexStep i => "slice[" ++ toString i ++ "]"
  | .mapKeyStep k => "map[" ++ k ++ "]"
  | .mapKeyValueStep k => "map[" ++ k ++ "].<key>"
  | .omMapStep k => "[" ++ k ++ "]"
  | .omMapKeyStep k => "[" ++ k ++ "].<key>"

/-- `deepcopy.Path.String()`: join with `.`, replace `*.` by `*`, then `.[`
by `[`. -/
def dpathStr (p : List DStep) : String :=
  ⟨replace2 '.' '[' ['[']
    (replace2 '*' '.' ['*'] (String.intercalate "." (p.map dstepStr)).toList)⟩

/-- The panic raised on an unexported (unsettable) struct field. -/
def unexportedMsg (path : List DStep) (orig : GoVal) : String :=
  "deepcopy found unexported field:\n  path: " ++ dpathStr path ++
    "\n  value: " ++ goDump orig

/-- `VisitedPtrMap` lookup (original address → clone address). -/
def lookupVis : List (Nat × Nat) → Nat → Option Nat
  | [], _ => none
  | (p, q) :: rest, a => if p = a then some q else lookupVis rest a

/-- `OrderedMap.Get` on the model's entry list. -/
def omapGetG : List (String × GoVal) → String → Option GoVal
  | [], _ => none
  | (k', v) :: rest, k => if k' = k then some v else omapGetG rest k

/-- `o.values[key] = value` on the model's entry list. -/
def omapAssocSetG : List (String × GoVal) → String → GoVal → List (String × GoVal)
  | [], k, v => [(k, v)]
  | (k', v') :: rest, k, v =>
    if k' = k then (k', v) :: rest else (k', v') :: omapAssocSetG rest k v

/-- `OrderedMap.Set` on a heap cell holding an `OrderedMap` object. -/
def omapSetCell : GoVal → String → GoVal → GoVal
  | .vomap ks es, k, v =>
    .vomap (if (omapGetG es k).isSome then ks else ks ++ [k]) (omapAssocSetG es k v)
  | cell, _, _ => cell

/-- Apply `OrderedMap.Set` to the clone cell at `cloneIdx`. -/
def setInClone (clones : List GoVal) (cloneIdx : Nat) (k : String) (v : GoVal) :
    List GoVal :=
  match clones.get? cloneIdx with
  | some cell => clones.set cloneIdx (omapSetCell cell k v)
  | none => clones

/-- `reflect.ValueOf` on an `any`: unwraps the interface. -/
def stripIface : GoVal → GoVal
  | .viface w => w
  | v => v

/-- One pending unit of `translateRecursive` work: a node to copy, or the
iteration state inside a struct / slice / Go map / OrderedMap hook. -/
inductive Task where
  | tval (path : List DStep) (v : GoVal)
  | tfields (path : List DStep) (tn : String) (orig : GoVal)
      (acc : List (String × Bool × GoVal)) (rest : List (String × Bool × GoVal))
  | tslice (path : List DStep) (idx : Nat) (acc : List GoVal) (rest : List GoVal)
  | tgomap (path : List DStep) (acc : List (GoVal × GoVal)) (rest : List (GoVal × GoVal))
  | tentries (path : List DStep) (cloneIdx : Nat) (rest : List (String × GoVal))
  deriving Repr

/-- The outcome of a run: result value (plus the clone region and the
visited-pointer map), a Go panic, or exhausted fuel. -/
inductive GRes where
  | fuelOut
  | panicked (msg : String)
  | ok (v : GoVal) (clones : List GoVal) (vis : List (Nat × Nat))
  deriving Repr

/-- The engine.  `H` is the original heap (never written); clone cell `i` has
address `H.length + i`.  The pointer case registers the original address in
the visited map before recursing into the target, which is what closes
cycles; the `*OrderedMap` pointer case models the `CustomDeepCopyMethod`
dispatch: the clone slot receives `New()` first (so the registered address is
usable by cycle-closing encounters), then the returned `CloneFn` re-`Set`s
every key in order, routing keys and values back through the engine. -/
def copyGo (H : List GoVal) : Nat → List GoVal → List (Nat × Nat) → Task → GRes
  | 0, _, _, _ => .fuelOut
  | f + 1, clones, vis, task =>
    match task with
    | .tval path v =>
      match v with
      | .vptr tn p =>
        match lookupVis vis p with
        | some q => .ok (.vptr tn q) clones vis
        | none =>
          match H.get? p with
          | none => .ok (.vptr tn p) clones vis
          | some target =>
            match target with
            | .vomap ks es =>
              match copyGo H f (clones ++ [.vomap [] []]) ((p, H.length + clones.length) :: vis)
                  (.tentries (path ++ [.typeStep tn]) clones.length
                    (ks.map (fun k => (k, (omapGetG es k).getD .vifaceNil)))) with
              | .ok _ c2 v2 => .ok (.vptr tn (H.length + clones.length)) c2 v2
              | r => r
            | _ =>
              match copyGo H f (clones ++ [.vifaceNil]) ((p, H.length + clones.length) :: vis)
                  (.tval (path ++ [.pointerStep]) target) with
              | .ok cv c2 v2 =>
                .ok (.vptr tn (H.length + clones.length)) (c2.set clones.length cv) v2
              | r => r
      | .vptrNil tn => .ok (.vptrNil tn) clones vis
      | .viface w =>
        match copyGo H f clones vis (.tval (path ++ [.interfaceStep (goTypeName w)]) w) with
        | .ok cv c2 v2 => .ok (.viface cv) c2 v2
        | r => r
      | .vifaceNil => .ok .vifaceNil clones vis
      | .vstruct tn fields => copyGo H f clones vis (.tfields path tn (.vstruct tn fields) [] fields)
      | .vslice xs => copyGo H f clones vis (.tslice path 0 [] xs)
      | .vsliceNil => .ok .vsliceNil clones vis
      | .vgomap pairs => copyGo H f clones vis (.tgomap path [] pairs)
      | .vgomapNil => .ok .vgomapNil clones vis
      | .vomap ks es =>
        .panicked (unexportedMsg (path ++ [.structFieldStep "orderedmap.OrderedMap" "keys"])
          (.vomap ks es))
      | .vbool b => .ok (.vbool b) clones vis
      | .vint n => .ok (.vint n) clones vis
      | .vstr s => .ok (.vstr s) clones vis
    | .tfields path tn orig acc rest =>
      match rest with
      | [] => .ok (.vstruct tn acc.reverse) clones vis
      | (fname, exported, fv) :: frest =>
        if exported then
          match copyGo H f clones vis (.tval (path ++ [.structFieldStep tn fname]) fv) with
          | .ok cv c2 v2 =>
            copyGo H f c2 v2 (.tfields path tn orig ((fname, exported, cv) :: acc) frest)
          | r => r
        else
          .panicked (unexportedMsg (path ++ [.structFieldStep tn fname]) orig)
    | .tslice path idx acc rest =>
      match rest with
      | [] => .ok (.vslice acc.reverse) clones vis
      | x :: xrest =>
        match copyGo H f clones vis (.tval (path ++ [.sliceIndexStep idx]) x) with
        | .ok cv c2 v2 => copyGo H f c2 v2 (.tslice path (idx + 1) (cv :: acc) xrest)
        | r => r
    | .tgomap path acc rest =>
      match rest with
      | [] => .ok (.vgomap acc.reverse) clones vis
      | (k, v) :: prest =>
        match copyGo H f clones vis (.tval (path ++ [.mapKeyValueStep (goVStr k)]) k) with
        | .ok ck c2 v2 =>
          match copyGo H f c2 v2 (.tval (path ++ [.mapKeyStep (goVStr k)]) v) with
          | .ok cv c3 v3 => copyGo H f c3 v3 (.tgomap path ((ck, cv) :: acc) prest)
          | r => r
        | r => r
    | .tentries path cloneIdx rest =>
      match rest with
      | [] => .ok .vifaceNil clones vis
      | (k, v) :: erest =>
        match copyGo H f clones vis (.tval (path ++ [.omMapKeyStep k]) (.vstr k)) with
        | .ok kc c2 v2 =>
          match kc with
          | .vstr kcs =>
            match v with
            | .vifaceNil =>
              copyGo H f (setInClone c2 cloneIdx kcs .vifaceNil) v2
                (.tentries path cloneIdx erest)
            | _ =>
              match copyGo H f c2 v2 (.tval (path ++ [.omMapStep k]) (stripIface v)) with
              | .ok cv c3 v3 =>
                copyGo H f (setInClone c3 cloneIdx kcs cv) v3 (.tentries path cloneIdx erest)
              | r => r
          | _ => .panicked "interface conversion: value is not a string"
        | r => r

/-- `Copy(value)`: empty path, fresh `VisitedPtrMap`; `reflect.ValueOf` strips
the `any` wrapper first. -/
def deepCopyGo (fuel : Nat) (H : List GoVal) (v : GoVal) : GRes :=
  copyGo H fuel [] [] (.tval [] (stripIface v))

mutual

/-- Fuel-indexed deep equality between a value over heap `h1` and a value
over heap `h2` (`reflect.DeepEqual` truncated at depth `n`; full deep
equality is `∀ n`).  Each level and each list element consumes one unit. -/
def deepEqN : Nat → List GoVal → GoVal → List GoVal → GoVal → Bool
  | 0, _, _, _, _ => true
  | n + 1, h1, v1, h2, v2 =>
    match v1, v2 with
    | .vbool a, .vbool b => a == b
    | .vint a, .vint b => a == b
    | .vstr a, .vstr b => a == b
    | .vptr t1 p, .vptr t2 q =>
      t1 == t2 &&
        (match h1.get? p, h2.get? q with
         | some w1, some w2 => deepEqN n h1 w1 h2 w2
         | _, _ => false)
    | .vptrNil t1, .vptrNil t2 => t1 == t2
    | .viface a, .viface b => deepEqN n h1 a h2 b
    | .vifaceNil, .vifaceNil => true
    | .vstruct t1 f1, .vstruct t2 f2 => t1 == t2 && deepEqFieldsN n h1 f1 h2 f2
    | .vslice a, .vslice b => deepEqListN n h1 a h2 b
    | .vsliceNil, .vsliceNil => true
    | .vgomap a, .vgomap b => deepEqPairsN n h1 a h2 b
    | .vgomapNil, .vgomapNil => true
    | .vomap k1 e1, .vomap k2 e2 => k1 == k2 && deepEqEntriesN n h1 e1 h2 e2
    | _, _ => false

def deepEqFieldsN : Nat → List GoVal → List (String × Bool × GoVal) →
    List GoVal → List (String × Bool × GoVal) → Bool
  | 0, _, _, _, _ => true
  | n + 1, h1, f1, h2, f2 =>
    match f1, f2 with
    | [], [] => true
    | (n1, e1, v1) :: r1, (n2, e2, v2) :: r2 =>
      n1 == n2 && e1 == e2 && deepEqN n h1 v1 h2 v2 && deepEqFieldsN n h1 r1 h2 r2
    | _, _ => false

def deepEqListN : Nat → List GoVal → List GoVal → List GoVal → List GoVal → Bool
  | 0, _, _, _, _ => true
  | n + 1, h1, l1, h2, l2 =>
    match l1, l2 with
    | [], [] => true
    | x :: r1, y :: r2 => deepEqN n h1 x h2 y && deepEqListN n h1 r1 h2 r2
    | _, _ => false

def deepEqPairsN : Nat → List GoVal → List (GoVal × GoVal) →
    List GoVal → List (GoVal × GoVal) → Bool
  | 0, _, _, _, _ => true
  | n + 1, h1, l1, h2, l2 =>
    match l1, l2 with
    | [], [] => true
    | (k1, v1) :: r1, (k2, v2) :: r2 =>
      deepEqN n h1 k1 h2 k2 && deepEqN n h1 v1 h2 v2 && deepEqPairsN n h1 r1 h2 r2
    | _, _ => false

def deepEqEntriesN : Nat → List GoVal → List (String × GoVal) →
    List GoVal → List (String × GoVal) → Bool
  | 0, _, _, _, _ => true
  | n + 1, h1, l1, h2, l2 =>
    match l1, l2 with
    | [], [] => true
    | (k1, v1) :: r1, (k2, v2) :: r2 =>
      k1 == k2 && deepEqN n h1 v1 h2 v2 && deepEqEntriesN n h1 r1 h2 r2
    | _, _ => false

end

theorem strExt (s t : String) (h : s.data = t.data) : s = t := by
  cases s
  cases t
  exact congrArg String.mk h

theorem deepEqEntriesN_nil (n : Nat) (h1 h2 : List GoVal) :
    deepEqEntriesN n h1 [] h2 [] = true := by
  cases n <;> rfl

/-- The self-referential map of `TestCopyCycle`: `m.Set("key", m)`.  The heap
has one cell (the `OrderedMap` object), and the value is the `*OrderedMap`
pointer to it. -/
def c2H : List GoVal := [.vomap ["key"] [("key", .vptr "*orderedmap.OrderedMap" 0)]]

/-- The clone cell `Copy` builds for it: self-referential at the clone's own
address `1`. -/
def c2Clone : GoVal := .vomap ["key"] [("key", .vptr "*orderedmap.OrderedMap" 1)]

/-- C2 — cycle termination of deep copy: for every sufficiently large fuel the
run of `Copy` on the self-referential map returns the same result (the
computation terminates), because the pointer is registered in the
`VisitedPtrMap` before the hook's completion closure runs, so the
cycle-closing encounter of address `0` resolves to the already-registered
clone address `1`.  The clone stored under `"key"` is the clone itself — a
new reference, distinct from the original — and the clone deep-equals the
original at every depth. -/
theorem C2_cycle_copy_terminates :
    (∀ f : Nat,
      deepCopyGo (f + 6) c2H (.vptr "*orderedmap.OrderedMap" 0) =
        .ok (.vptr "*orderedmap.OrderedMap" 1) [c2Clone] [(0, 1)]) ∧
    (omapGetG [("key", .vptr "*orderedmap.OrderedMap" 1)] "key" =
      some (.vptr "*orderedmap.OrderedMap" 1)) ∧
    (GoVal.vptr "*orderedmap.OrderedMap" 1 ≠ .vptr "*orderedmap.OrderedMap" 0) ∧
    (∀ n : Nat,
      deepEqN n c2H (.vptr "*orderedmap.OrderedMap" 0)
        (c2H ++ [c2Clone]) (.vptr "*orderedmap.OrderedMap" 1) = true) := by
  refine ⟨fun f => rfl, rfl, by simp, ?_⟩
  intro n
  have aux : ∀ m : Nat,
      (deepEqN m c2H (.vptr "*orderedmap.OrderedMap" 0)
        (c2H ++ [c2Clone]) (.vptr "*orderedmap.OrderedMap" 1) = true) ∧
      (deepEqN (m + 1) c2H (.vptr "*orderedmap.OrderedMap" 0)
        (c2H ++ [c2Clone]) (.vptr "*orderedmap.OrderedMap" 1) = true) ∧
      (deepEqN (m + 2) c2H (.vptr "*orderedmap.OrderedMap" 0)
        (c2H ++ [c2Clone]) (.vptr "*orderedmap.OrderedMap" 1) = true) := by
    intro m
    induction m with
    | zero => exact ⟨rfl, rfl, rfl⟩
    | succ k ih =>
      refine ⟨ih.2.1, ih.2.2, ?_⟩
      have hstep : deepEqN (k + 3) c2H (.vptr "*orderedmap.OrderedMap" 0)
          (c2H ++ [c2Clone]) (.vptr "*orderedmap.OrderedMap" 1) =
          (deepEqN k c2H (.vptr "*orderedmap.OrderedMap" 0)
              (c2H ++ [c2Clone]) (.vptr "*orderedmap.OrderedMap" 1) &&
            deepEqEntriesN k c2H [] (c2H ++ [c2Clone]) []) := rfl
      rw [hstep, ih.1, deepEqEntriesN_nil]
      rfl
  exact (aux n).1

/-- The heap of `TestCopyUnexportedFields`, with the two private string
fields as parameters: cell 0 is the `OrderedMap` object mapping `"key"` to
the `*UnExportedFields` pointer, cell 1 the struct with its two unexported
fields. -/
def c5H (a b : String) : List GoVal :=
  [.vomap ["key"] [("key", .vptr "*deepcopy_test.UnExportedFields" 1)],
   .vstruct "deepcopy_test.UnExportedFields"
     [("key1", false, .vstr a), ("key2", false, .vstr b)]]

/-- C5 — unexported-field fatal abort: deep copy of a struct with an
unsettable (unexported) field aborts the whole operation with a panic — no
clone is returned — and the panic message carries the full dotted/bracketed
path to the offending field and a `%#v` dump of the offending original
value; in general, any struct traversal reaching an unexported field panics
with exactly that message. -/
theorem C5_unexported_field_panics :
    (∀ (a b : String) (f : Nat),
      deepCopyGo (f + 6) (c5H a b) (.vptr "*orderedmap.OrderedMap" 0) =
        .panicked
          ("deepcopy found unexported field:\n  path: *orderedmap.OrderedMap[key].*deepcopy_test.UnExportedFields[key1]\n  value: deepcopy_test.UnExportedFields\x7bkey1:\"" ++
            a ++ "\", key2:\"" ++ b ++ "\"\x7d")) ∧
    (∀ (H : List GoVal) (f : Nat) (path : List DStep) (tn fname : String)
        (orig fv : GoVal) (acc rest : List (String × Bool × GoVal))
        (clones : List GoVal) (vis : List (Nat × Nat)),
      copyGo H (f + 1) clones vis (.tfields path tn orig acc ((fname, false, fv) :: rest)) =
        .panicked (unexportedMsg (path ++ [.structFieldStep tn fname]) orig)) := by
  refine ⟨?_, fun _ _ _ _ _ _ _ _ _ _ _ => rfl⟩
  intro a b f
  have h : deepCopyGo (f + 6) (c5H a b) (.vptr "*orderedmap.OrderedMap" 0) =
      .panicked (unexportedMsg
        [.typeStep "*orderedmap.OrderedMap", .omMapStep "key", .pointerStep,
          .structFieldStep "deepcopy_test.UnExportedFields" "key1"]
        (.vstruct "deepcopy_test.UnExportedFields"
          [("key1", false, .vstr a), ("key2", false, .vstr b)])) := rfl
  rw [h]
  apply congrArg
  apply strExt
  have hp : dpathStr [.typeStep "*orderedmap.OrderedMap", .omMapStep "key", .pointerStep,
      .structFieldStep "deepcopy_test.UnExportedFields" "key1"] =
      "*orderedmap.OrderedMap[key].*deepcopy_test.UnExportedFields[key1]" := rfl
  simp [unexportedMsg, hp, goDump, goDumpFields, String.data_append, List.append_assoc,
    String.intercalate, String.intercalate.go]

/-! Claim C1: aliasing preservation.  `PtrFree` singles out values that
contain no pointers (and no unexported fields, no `OrderedMap`), for which
generic traversal returns the value unchanged without touching the clone
region or the visited map. -/

/-- Pointer-free, fully-exported values: deep copy of such a value is the
value itself. -/
inductive PtrFree : GoVal → Prop where
  | vbool (b : Bool) : PtrFree (.vbool b)
  | vint (n : Int) : PtrFree (.vint n)
  | vstr (s : String) : PtrFree (.vstr s)
  | vptrNil (tn : String) : PtrFree (.vptrNil tn)
  | vifaceNil : PtrFree .vifaceNil
  | viface (v : GoVal) (h : PtrFree v) : PtrFree (.viface v)
  | vstruct (tn : String) (fields : List (String × Bool × GoVal))
      (hexp : ∀ p ∈ fields, p.2.1 = true)
      (hpf : ∀ p ∈ fields, PtrFree p.2.2) : PtrFree (.vstruct tn fields)
  | vslice (xs : List GoVal) (h : ∀ x ∈ xs, PtrFree x) : PtrFree (.vslice xs)
  | vsliceNil : PtrFree .vsliceNil
  | vgomap (ps : List (GoVal × GoVal))
      (hk : ∀ p ∈ ps, PtrFree p.1)
      (hv : ∀ p ∈ ps, PtrFree p.2) : PtrFree (.vgomap ps)
  | vgomapNil : PtrFree .vgomapNil

mutual

/-- Fuel sufficient for the engine to finish copying a value. -/
def fcost : GoVal → Nat
  | .viface w => 1 + fcost w
  | .vstruct _ fields => 1 + fcostFields fields
  | .vslice xs => 1 + fcostList xs
  | .vgomap ps => 1 + fcostPairs ps
  | _ => 1

/-- Fuel for the struct-field walk. -/
def fcostFields : List (String × Bool × GoVal) → Nat
  | [] => 1
  | (_, _, v) :: rest => 1 + fcost v + fcostFields rest

/-- Fuel for the slice-element walk. -/
def fcostList : List GoVal → Nat
  | [] => 1
  | v :: rest => 1 + fcost v + fcostList rest

/-- Fuel for the Go-map pair walk. -/
def fcostPairs : List (GoVal × GoVal) → Nat
  | [] => 1
  | (k, v) :: rest => 1 + fcost k + fcost v + fcostPairs rest

end

/-- Copying a pointer-free value returns it unchanged: no clone cell is
allocated and the visited map is untouched. -/
theorem copy_pf (H : List GoVal) {v : GoVal} (hv : PtrFree v) :
    ∀ (g : Nat) (path : List DStep) (clones : List GoVal) (vis : List (Nat × Nat)),
      copyGo H (g + fcost v) clones vis (.tval path v) = .ok v clones vis := by
  induction hv with
  | vbool b => intro g path clones vis; simp [fcost, copyGo]
  | vint n => intro g path clones vis; simp [fcost, copyGo]
  | vstr s => intro g path clones vis; simp [fcost, copyGo]
  | vptrNil tn => intro g path clones vis; simp [fcost, copyGo]
  | vifaceNil => intro g path clones vis; simp [fcost, copyGo]
  | vsliceNil => intro g path clones vis; simp [fcost, copyGo]
  | vgomapNil => intro g path clones vis; simp [fcost, copyGo]
  | viface w hw ih =>
    intro g path clones vis
    rw [show g + fcost (.viface w) = (g + fcost w) + 1 from by simp [fcost]; omega]
    simp only [copyGo]
    rw [ih]
  | vstruct tn fields hexp hpf ih =>
    intro g path clones vis
    have walk : ∀ (l : List (String × Bool × GoVal)),
        (∀ p ∈ l, p.2.1 = true) →
        (∀ p ∈ l, ∀ (g : Nat) (path : List DStep) (clones : List GoVal)
          (vis : List (Nat × Nat)),
          copyGo H (g + fcost p.2.2) clones vis (.tval path p.2.2) = .ok p.2.2 clones vis) →
        ∀ (g : Nat) (acc : List (String × Bool × GoVal)) (path : List DStep)
          (clones : List GoVal) (vis : List (Nat × Nat)),
          copyGo H (g + fcostFields l) clones vis
              (.tfields path tn (.vstruct tn fields) acc l) =
            .ok (.vstruct tn (acc.reverse ++ l)) clones vis := by
      intro l
      induction l with
      | nil =>
        intro _ _ g acc path clones vis
        rw [show g + fcostFields [] = g + 1 from by simp [fcostFields]]
        simp [copyGo]
      | cons p rest ihl =>
        obtain ⟨fn, ex, fv⟩ := p
        intro hex hel g acc path clones vis
        have hext : ex = true := hex (fn, ex, fv) (by simp)
        subst hext
        have hel1 : ∀ (g : Nat) (path : List DStep) (clones : List GoVal)
            (vis : List (Nat × Nat)),
            copyGo H (g + fcost fv) clones vis (.tval path fv) = .ok fv clones vis :=
          fun g path clones vis => hel (fn, true, fv) (by simp) g path clones vis
        rw [show g + fcostFields ((fn, true, fv) :: rest) =
            ((g + fcostFields rest) + fcost fv) + 1 from by simp [fcostFields]; omega]
        simp only [copyGo, if_true]
        rw [hel1]
        dsimp only
        rw [show (g + fcostFields rest) + fcost fv = (g + fcost fv) + fcostFields rest
          from by omega]
        rw [ihl (fun p hp => hex p (by simp [hp])) (fun p hp => hel p (by simp [hp]))
          (g + fcost fv) ((fn, true, fv) :: acc) path clones vis]
        simp
    rw [show g + fcost (.vstruct tn fields) = (g + fcostFields fields) + 1
      from by simp [fcost]; omega]
    simp only [copyGo]
    rw [walk fields hexp ih g [] path clones vis]
    simp
  | vslice xs hxs ih =>
    intro g path clones vis
    have walk : ∀ (l : List GoVal),
        (∀ x ∈ l, ∀ (g : Nat) (path : List DStep) (clones : List GoVal)
          (vis : List (Nat × Nat)),
          copyGo H (g + fcost x) clones vis (.tval path x) = .ok x clones vis) →
        ∀ (g idx : Nat) (acc : List GoVal) (path : List DStep)
          (clones : List GoVal) (vis : List (Nat × Nat)),
          copyGo H (g + fcostList l) clones vis (.tslice path idx acc l) =
            .ok (.vslice (acc.reverse ++ l)) clones vis := by
      intro l
      induction l with
      | nil =>
        intro _ g idx acc path clones vis
        rw [show g + fcostList [] = g + 1 from by simp [fcostList]]
        simp [copyGo]
      | cons x rest ihl =>
        intro hel g idx acc path clones vis
        have hel1 : ∀ (g : Nat) (path : List DStep) (clones : List GoVal)
            (vis : List (Nat × Nat)),
            copyGo H (g + fcost x) clones vis (.tval path x) = .ok x clones vis :=
          fun g path clones vis => hel x (by simp) g path clones vis
        rw [show g + fcostList (x :: rest) = ((g + fcostList rest) + fcost x) + 1
          from by simp [fcostList]; omega]
        simp only [copyGo]
        rw [hel1]
        dsimp only
        rw [show (g + fcostList rest) + fcost x = (g + fcost x) + fcostList rest
          from by omega]
        rw [ihl (fun x hx => hel x (by simp [hx])) (g + fcost x) (idx + 1) (x :: acc)
          path clones vis]
        simp
    rw [show g + fcost (.vslice xs) = (g + fcostList xs) + 1 from by simp [fcost]; omega]
    simp only [copyGo]
    rw [walk xs ih g 0 [] path clones vis]
    simp
  | vgomap ps hpk hpv ihk ihv =>
    intro g path clones vis
    have walk : ∀ (l : List (GoVal × GoVal)),
        (∀ p ∈ l,
          (∀ (g : Nat) (path : List DStep) (clones : List GoVal) (vis : List (Nat × Nat)),
            copyGo H (g + fcost p.1) clones vis (.tval path p.1) = .ok p.1 clones vis) ∧
          (∀ (g : Nat) (path : List DStep) (clones : List GoVal) (vis : List (Nat × Nat)),
            copyGo H (g + fcost p.2) clones vis (.tval path p.2) = .ok p.2 clones vis)) →
        ∀ (g : Nat) (acc : List (GoVal × GoVal)) (path : List DStep)
          (clones : List GoVal) (vis : List (Nat × Nat)),
          copyGo H (g + fcostPairs l) clones vis (.tgomap path acc l) =
            .ok (.vgomap (acc.reverse ++ l)) clones vis := by
      intro l
      induction l with
      | nil =>
        intro _ g acc path clones vis
        rw [show g + fcostPairs [] = g + 1 from by simp [fcostPairs]]
        simp [copyGo]
      | cons p rest ihl =>
        obtain ⟨k, v⟩ := p
        intro hel g acc path clones vis
        have helk : ∀ (g : Nat) (path : List DStep) (clones : List GoVal)
            (vis : List (Nat × Nat)),
            copyGo H (g + fcost k) clones vis (.tval path k) = .ok k clones vis :=
          fun g path clones vis => (hel (k, v) (by simp)).1 g path clones vis
        have helv : ∀ (g : Nat) (path : List DStep) (clones : List GoVal)
            (vis : List (Nat × Nat)),
            copyGo H (g + fcost v) clones vis (.tval path v) = .ok v clones vis :=
          fun g path clones vis => (hel (k, v) (by simp)).2 g path clones vis
        rw [show g + fcostPairs ((k, v) :: rest) =
            (((g + fcostPairs rest) + fcost v) + fcost k) + 1
          from by simp [fcostPairs]; omega]
        simp only [copyGo]
        rw [helk]
        dsimp only
        rw [show ((g + fcostPairs rest) + fcost v) + fcost k =
            ((g + fcostPairs rest) + fcost k) + fcost v from by omega]
        rw [helv]
        dsimp only
        rw [show ((g + fcostPairs rest) + fcost k) + fcost v =
            ((g + fcost k) + fcost v) + fcostPairs rest from by omega]
        rw [ihl (fun p hp => hel p (by simp [hp])) ((g + fcost k) + fcost v)
          ((k, v) :: acc) path clones vis]
        simp
    rw [show g + fcost (.vgomap ps) = (g + fcostPairs ps) + 1 from by simp [fcost]; omega]
    simp only [copyGo]
    rw [walk ps (fun p hp => ⟨ihk p hp, ihv p hp⟩) g [] path clones vis]
    simp

/-- Cloning a fresh (unvisited) pointer to a pointer-free target: the engine
registers the original address `0` in the visited map, allocates clone cell
`1` (the first address past the one-cell original heap), copies the target
into it, and returns a pointer to the new cell. -/
theorem copy_ptr_fresh_step {v : GoVal} (hv : PtrFree v) (tn : String) (g : Nat)
    (path : List DStep)
    (hrun : copyGo [v] ((g + fcost v) + 2) [] [] (.tval path (.vptr tn 0)) =
      (match copyGo [v] ((g + fcost v) + 1) [.vifaceNil] [(0, 1)]
          (.tval (path ++ [.pointerStep]) v) with
        | .ok cv c2 v2 => .ok (.vptr tn 1) (c2.set 0 cv) v2
        | r => r)) :
    copyGo [v] ((g + fcost v) + 2) [] [] (.tval path (.vptr tn 0)) =
      .ok (.vptr tn 1) [v] [(0, 1)] := by
  rw [hrun]
  rw [show (g + fcost v) + 1 = (g + 1) + fcost v from by omega]
  rw [copy_pf [v] hv (g + 1) (path ++ [DStep.pointerStep]) [GoVal.vifaceNil] [(0, 1)]]
  dsimp only
  simp [List.set]

theorem copy_ptr_fresh {v : GoVal} (hv : PtrFree v) (tn : String) (g : Nat)
    (path : List DStep) :
    copyGo [v] ((g + fcost v) + 2) [] [] (.tval path (.vptr tn 0)) =
      .ok (.vptr tn 1) [v] [(0, 1)] := by
  cases v with
  | vptr tn2 a => cases hv
  | vomap ks es => cases hv
  | vbool b => exact copy_ptr_fresh_step hv tn g path rfl
  | vint n => exact copy_ptr_fresh_step hv tn g path rfl
  | vstr s => exact copy_ptr_fresh_step hv tn g path rfl
  | vptrNil tn2 => exact copy_ptr_fresh_step hv tn g path rfl
  | viface w => exact copy_ptr_fresh_step hv tn g path rfl
  | vifaceNil => exact copy_ptr_fresh_step hv tn g path rfl
  | vstruct tn2 fields => exact copy_ptr_fresh_step hv tn g path rfl
  | vslice xs => exact copy_ptr_fresh_step hv tn g path rfl
  | vsliceNil => exact copy_ptr_fresh_step hv tn g path rfl
  | vgomap ps => exact copy_ptr_fresh_step hv tn g path rfl
  | vgomapNil => exact copy_ptr_fresh_step hv tn g path rfl

/-- Deep equality is reflexive on pointer-free values, over any two heaps. -/
theorem deepEq_pf_refl {v : GoVal} (hv : PtrFree v) :
    ∀ (n : Nat) (h1 h2 : List GoVal), deepEqN n h1 v h2 v = true := by
  induction hv with
  | vbool b => intro n h1 h2; cases n <;> simp [deepEqN]
  | vint n0 => intro n h1 h2; cases n <;> simp [deepEqN]
  | vstr s => intro n h1 h2; cases n <;> simp [deepEqN]
  | vptrNil tn => intro n h1 h2; cases n <;> simp [deepEqN]
  | vifaceNil => intro n h1 h2; cases n <;> simp [deepEqN]
  | vsliceNil => intro n h1 h2; cases n <;> simp [deepEqN]
  | vgomapNil => intro n h1 h2; cases n <;> simp [deepEqN]
  | viface w hw ih => intro n h1 h2; cases n <;> simp [deepEqN, ih]
  | vstruct tn fields hexp hpf ih =>
    have walk : ∀ (l : List (String × Bool × GoVal)),
        (∀ p ∈ l, ∀ (n : Nat) (h1 h2 : List GoVal),
          deepEqN n h1 p.2.2 h2 p.2.2 = true) →
        ∀ (n : Nat) (h1 h2 : List GoVal), deepEqFieldsN n h1 l h2 l = true := by
      intro l
      induction l with
      | nil => intro _ n h1 h2; cases n <;> rfl
      | cons p rest ihl =>
        obtain ⟨fn, ex, fv⟩ := p
        intro hel n h1 h2
        cases n with
        | zero => rfl
        | succ m =>
          simp [deepEqFieldsN, hel (fn, ex, fv) (by simp) m,
            ihl (fun p hp => hel p (by simp [hp])) m]
    intro n h1 h2
    cases n with
    | zero => rfl
    | succ m => simp [deepEqN, walk fields ih m]
  | vslice xs hxs ih =>
    have walk : ∀ (l : List GoVal),
        (∀ x ∈ l, ∀ (n : Nat) (h1 h2 : List GoVal), deepEqN n h1 x h2 x = true) →
        ∀ (n : Nat) (h1 h2 : List GoVal), deepEqListN n h1 l h2 l = true := by
      intro l
      induction l with
      | nil => intro _ n h1 h2; cases n <;> rfl
      | cons x rest ihl =>
        intro hel n h1 h2
        cases n with
        | zero => rfl
        | succ m =>
          simp [deepEqListN, hel x (by simp) m, ihl (fun x hx => hel x (by simp [hx])) m]
    intro n h1 h2
    cases n with
    | zero => rfl
    | succ m => simp [deepEqN, walk xs ih m]
  | vgomap ps hpk hpv ihk ihv =>
    have walk : ∀ (l : List (GoVal × GoVal)),
        (∀ p ∈ l, ∀ (n : Nat) (h1 h2 : List GoVal), deepEqN n h1 p.1 h2 p.1 = true) →
        (∀ p ∈ l, ∀ (n : Nat) (h1 h2 : List GoVal), deepEqN n h1 p.2 h2 p.2 = true) →
        ∀ (n : Nat) (h1 h2 : List GoVal), deepEqPairsN n h1 l h2 l = true := by
      intro l
      induction l with
      | nil => intro _ _ n h1 h2; cases n <;> rfl
      | cons p rest ihl =>
        obtain ⟨k, v⟩ := p
        intro helk helv n h1 h2
        cases n with
        | zero => rfl
        | succ m =>
          simp [deepEqPairsN, helk (k, v) (by simp) m, helv (k, v) (by simp) m,
            ihl (fun p hp => helk p (by simp [hp])) (fun p hp => helv p (by simp [hp])) m]
    intro n h1 h2
    cases n with
    | zero => rfl
    | succ m => simp [deepEqN, walk ps ihk ihv m]

/-- C1 — aliasing preservation of deep copy.  For every pointer-free target
value `v` and a diamond input whose two slice elements are pointers to the
same heap cell `0`, `Copy` produces a slice whose two elements are pointers
to the same single clone cell `1` (the aliasing topology is preserved: one
new allocation, shared); the clone address differs from the original target
address, the new cell holds the cloned target, and the clone deep-equals the
input at every depth. -/
theorem C1_aliasing_preservation :
    ∀ (v : GoVal) (tn : String), PtrFree v → ∀ g : Nat,
      (deepCopyGo ((g + fcost v) + 4) [v] (.vslice [.vptr tn 0, .vptr tn 0]) =
        .ok (.vslice [.vptr tn 1, .vptr tn 1]) [v] [(0, 1)]) ∧
      (([v] ++ [v]).get? 1 = some v) ∧
      (GoVal.vptr tn 1 ≠ .vptr tn 0) ∧
      (∀ n : Nat,
        deepEqN n [v] (.vslice [.vptr tn 0, .vptr tn 0])
          ([v] ++ [v]) (.vslice [.vptr tn 1, .vptr tn 1]) = true) := by
  intro v tn hv g
  have hptr : ∀ m : Nat,
      deepEqN m [v] (.vptr tn 0) [v, v] (.vptr tn 1) = true := by
    intro m
    cases m with
    | zero => rfl
    | succ k => simp [deepEqN, deepEq_pf_refl hv k]
  refine ⟨?_, rfl, by simp, ?_⟩
  · have step1 : deepCopyGo ((g + fcost v) + 4) [v] (.vslice [.vptr tn 0, .vptr tn 0]) =
        (match copyGo [v] ((g + fcost v) + 2) [] []
            (.tval [DStep.sliceIndexStep 0] (.vptr tn 0)) with
          | .ok cv c2 v2 =>
            copyGo [v] ((g + fcost v) + 2) c2 v2 (.tslice [] 1 [cv] [.vptr tn 0])
          | r => r) := rfl
    rw [step1, copy_ptr_fresh hv tn g [DStep.sliceIndexStep 0]]
    rfl
  · intro n
    have hlist : ∀ m : Nat,
        (deepEqListN m [v] [.vptr tn 0, .vptr tn 0]
          [v, v] [.vptr tn 1, .vptr tn 1] = true) ∧
        (deepEqListN m [v] [.vptr tn 0] [v, v] [.vptr tn 1] = true) ∧
        (deepEqListN m [v] ([] : List GoVal) [v, v] [] = true) := by
      intro m
      induction m with
      | zero => exact ⟨rfl, rfl, rfl⟩
      | succ k ih =>
        refine ⟨?_, ?_, rfl⟩
        · simp only [deepEqListN]
          rw [hptr k, ih.2.1]
          rfl
        · simp only [deepEqListN]
          rw [hptr k, ih.2.2]
          rfl
    cases n with
    | zero => rfl
    | succ m => simp [deepEqN, (hlist m).1]

/-- Witness for C1 at a concrete pointer-free target. -/
theorem C1_aliasing_preservation_witness :
    (deepCopyGo ((0 + fcost (.vint 7)) + 4) [.vint 7]
        (.vslice [.vptr "*int" 0, .vptr "*int" 0]) =
      .ok (.vslice [.vptr "*int" 1, .vptr "*int" 1]) [.vint 7] [(0, 1)]) ∧
    (([GoVal.vint 7] ++ [GoVal.vint 7]).get? 1 = some (.vint 7)) ∧
    (GoVal.vptr "*int" 1 ≠ .vptr "*int" 0) ∧
    (∀ n : Nat,
      deepEqN n [GoVal.vint 7] (.vslice [.vptr "*int" 0, .vptr "*int" 0])
        ([GoVal.vint 7] ++ [GoVal.vint 7]) (.vslice [.vptr "*int" 1, .vptr "*int" 1]) = true) :=
  C1_aliasing_preservation (.vint 7) "*int" (PtrFree.vint 7) 0

end DeepCopyModel
